import Mathlib

/-!
Verification of the G-code lexer and block parser from `src/gcode/src/parser.rs`
(repository fooker/stains).

The Rust source is shallowly embedded: the character `Reader`, the `Lexer` and
the block `Parser` are translated into executable Lean functions over explicit
state.  Loops (`accept_while`, `accept_until`, the token loop of
`Parser::next`) are rendered as structurally recursive functions on an explicit
fuel argument; every public wrapper instantiates the fuel with a bound derived
from the reader size, and sufficiency of that bound is proved where theorems
depend on it.  IEEE-754 doubles produced from decimal literals are modelled as
exact rationals (`ℚ`): the number buffer only ever holds characters from
`[0-9+-.]` and non-ASCII numeric characters, so no exponent / inf / nan forms
can reach Rust's `f64::from_str`, and on the remaining grammar the parse is an
exact decimal value.  A Rust panic (reachable through `ArrayString::push` on
buffer overflow in `tok_number`) is modelled by an explicit `crash` outcome.
-/

namespace GCode

/-- `Token` (parser.rs, `enum Token`): the lexer's token alphabet. -/
inductive Token
  | BlockDelete
  | Letter (c : Char)
  | Number (x : ℚ)
  | Demarcation
  deriving DecidableEq

/-- `LexerError` (parser.rs, `enum LexerError`).  The `text` of `InvalidNumber`
is kept as the buffered character list. -/
inductive LexerError
  | IllegalSymbol (symbol : Char)
  | InvalidNumber (text : List Char)
  deriving DecidableEq

/-- `Reader<I>` (parser.rs, `struct Reader` in `mod lexer`): a cursor holding
the current character (already filtered) and the not-yet-consumed rest of the
input. -/
structure Reader where
  current : Option Char
  input : List Char
  deriving DecidableEq

/-- `Reader::next` (parser.rs lines 45-56): pull characters from the input,
skipping spaces and horizontal tabs, returning the first other character (if
any) together with the remaining input. -/
def readNext : List Char → Option Char × List Char
  | [] => (none, [])
  | c :: rest => if c = ' ' ∨ c = '\t' then readNext rest else (some c, rest)

/-- `Reader::new` (parser.rs lines 36-43). -/
def Reader.new (input : List Char) : Reader :=
  ⟨(readNext input).1, (readNext input).2⟩

/-- `Reader::enhance` (parser.rs lines 60-66), restricted to its effect on the
reader state: the cursor moves to the next non-whitespace character.  (The Rust
function additionally returns the old `current`, which every call site already
has in hand; it is only ever invoked while `current` is `Some`.) -/
def Reader.enhance (r : Reader) : Reader :=
  ⟨(readNext r.input).1, (readNext r.input).2⟩

/-- Termination measure for loops driven by `Reader.enhance`: remaining input
length plus one for a pending current character. -/
def Reader.size (r : Reader) : Nat :=
  r.input.length + (if r.current.isSome then 1 else 0)

/-- `Lexer::accept_while` (parser.rs lines 82-93) specialised to an acceptor
that collects the accepted characters in order (fuel-indexed worker; with
enough fuel this is exactly the Rust loop). -/
def acceptWhileGo (p : Char → Bool) : Nat → Reader → List Char × Reader
  | 0, r => ([], r)
  | fuel + 1, r =>
    match r.current with
    | some c =>
      if p c then
        ((c :: (acceptWhileGo p fuel r.enhance).1), (acceptWhileGo p fuel r.enhance).2)
      else ([], r)
    | none => ([], r)

/-- `Lexer::accept_while` with its canonical (sufficient) fuel. -/
def acceptWhile (p : Char → Bool) (r : Reader) : List Char × Reader :=
  acceptWhileGo p (r.size + 1) r

/-- `Lexer::accept_until` (parser.rs lines 95-107): consume characters until
(and including) the first one satisfying `p`.  Both call sites discard the
accepted characters, so only the reader state is returned (fuel-indexed
worker). -/
def acceptUntilGo (p : Char → Bool) : Nat → Reader → Reader
  | 0, r => r
  | fuel + 1, r =>
    match r.current with
    | some c => if p c then r.enhance else acceptUntilGo p fuel r.enhance
    | none => r

/-- `Lexer::accept_until` with its canonical (sufficient) fuel. -/
def acceptUntil (p : Char → Bool) (r : Reader) : Reader :=
  acceptUntilGo p (r.size + 1) r

/-- Rust `char::is_numeric` (Unicode categories Nd, Nl, No), as used by the
guard in `Lexer::next` and the predicate of `tok_number`.  Modelled exactly on
ASCII (where it holds precisely of the digits `0`-`9`) and on the common
non-ASCII decimal-digit ranges exercised in this development; Rust additionally
accepts further Unicode numeric characters that play no role in any claim. -/
def isNumericChar (c : Char) : Bool :=
  c.isDigit
    || (0x660 ≤ c.toNat && c.toNat ≤ 0x669)
    || (0x6F0 ≤ c.toNat && c.toNat ≤ 0x6F9)
    || (0x966 ≤ c.toNat && c.toNat ≤ 0x96F)
    || (0xFF10 ≤ c.toNat && c.toNat ≤ 0xFF19)

/-- The character class scanned by `Lexer::tok_number` (parser.rs line 158):
`c.is_numeric() || c == '+' || c == '-' || c == '.'`. -/
def numPred (c : Char) : Bool :=
  isNumericChar c || c = '+' || c = '-' || c = '.'

/-- UTF-8 byte length of a buffered character list (the length tracked by
`ArrayString<[u8; 32]>`). -/
def utf8Len (l : List Char) : Nat :=
  (l.map Char.utf8Size).sum

/-- `Lexer::accept_while` specialised to the acceptor of `tok_number`
(parser.rs line 159): push each accepted character into a 32-byte
`ArrayString`.  `ArrayString::push` panics when the character does not fit,
which is modelled by returning `none`. -/
def acceptNumberGo (p : Char → Bool) : Nat → Reader → List Char → Option (List Char × Reader)
  | 0, r, buf => some (buf, r)
  | fuel + 1, r, buf =>
    match r.current with
    | some c =>
      if p c then
        if utf8Len buf + c.utf8Size ≤ 32 then
          acceptNumberGo p fuel r.enhance (buf ++ [c])
        else none
      else some (buf, r)
    | none => some (buf, r)

/-- Digit run to natural number (helper for the decimal grammar below). -/
def digitsToNat (ds : List Char) : Nat :=
  ds.foldl (fun a c => 10 * a + (c.toNat - 48)) 0

/-- Rust `f64::from_str` restricted to the strings that can ever sit in the
number buffer (characters matching `numPred`, so no letters: the `inf`, `nan`
and exponent productions of Rust's grammar are unreachable).  Accepted shapes
are `sign? (digits+ ('.' digits*)? | '.' digits+)` with ASCII digits only; any
other buffer (including non-ASCII numeric characters, which Rust's float
parser rejects) fails.  The resulting double is modelled as the exact decimal
rational. -/
def parseF64 (s : List Char) : Option ℚ :=
  let sgn : Int := if s.head? = some '-' then -1 else 1
  let s' := if s.head? = some '-' ∨ s.head? = some '+' then s.tail else s
  let intDs := s'.takeWhile Char.isDigit
  match s'.dropWhile Char.isDigit with
  | [] =>
    if intDs.isEmpty then none else some (mkRat (sgn * (digitsToNat intDs : Int)) 1)
  | '.' :: frac =>
    if frac.all Char.isDigit && (!intDs.isEmpty || !frac.isEmpty) then
      some (mkRat (sgn * ((digitsToNat intDs * 10 ^ frac.length + digitsToNat frac : Nat) : Int))
        (10 ^ frac.length))
    else none
  | _ => none

/-- Result of one `Lexer::next` call.  `crash` models a Rust panic — the only
reachable one being `ArrayString::push` overflowing the 32-byte number buffer
in `tok_number`. -/
inductive LexResult
  | ok (t : Option Token)
  | err (e : LexerError)
  | crash
  deriving DecidableEq

/-- `Lexer::tok_number` (parser.rs lines 154-165): greedily buffer the
digit/sign/dot run (whitespace inside it disappears in the `Reader`), then
parse the buffer as a double. -/
def Lexer.tok_number (r : Reader) : LexResult × Reader :=
  match acceptNumberGo numPred (r.size + 1) r [] with
  | none => (.crash, r)
  | some (buf, r') =>
    match parseF64 buf with
    | some v => (.ok (some (.Number v)), r')
    | none => (.err (.InvalidNumber buf), r')

/-- First comment-skipping statement of `Lexer::next` (parser.rs line 111):
a `;` line comment runs up to (not including) the next newline. -/
def skipLineComment (r : Reader) : Reader :=
  if r.current = some ';' then (acceptWhile (fun c => !(c = '\n' : Bool)) r).2 else r

/-- Second comment-skipping statement of `Lexer::next` (parser.rs line 112):
a `(` block comment runs through (including) the next `)`. -/
def skipBlockComment (r : Reader) : Reader :=
  if r.current = some '(' then acceptUntil (fun c => (c = ')' : Bool)) r else r

/-- The token dispatch of `Lexer::next` (parser.rs lines 115-130), after the
comment-skipping prologue. -/
def lexDispatch (r : Reader) : LexResult × Reader :=
  match r.current with
  | none => (.ok none, r)
  | some c =>
    if c = '/' then (.ok (some .BlockDelete), r.enhance)
    else if c = '%' then (.ok (some .Demarcation), r.enhance)
    else if c.isAlpha then (.ok (some (.Letter c.toUpper)), r.enhance)
    else if c = '+' ∨ c = '-' ∨ c = '.' then Lexer.tok_number r
    else if isNumericChar c then Lexer.tok_number r
    else (.err (.IllegalSymbol c), r)

/-- `Lexer::next` (parser.rs lines 109-131). -/
def Lexer.next (r : Reader) : LexResult × Reader :=
  lexDispatch (skipBlockComment (skipLineComment r))

/-- How a maximal sequence of `Lexer::next` calls ends. -/
inductive LexEnd
  | done
  | failed (e : LexerError)
  | crashed
  | hung
  deriving DecidableEq

/-- Repeatedly call `Lexer::next`, collecting tokens until `Ok(None)`, an
error, or a crash; `hung` marks fuel exhaustion (i.e. would-be divergence). -/
def tokenizeGo : Nat → Reader → List Token × LexEnd
  | 0, _ => ([], .hung)
  | fuel + 1, r =>
    match Lexer.next r with
    | (.ok none, _) => ([], .done)
    | (.ok (some t), r') =>
      ((t :: (tokenizeGo fuel r').1), (tokenizeGo fuel r').2)
    | (.err e, _) => ([], .failed e)
    | (.crash, _) => ([], .crashed)

/-- The token sequence of one source line, with its ending, using the canonical
(sufficient) fuel. -/
def tokenize (line : List Char) : List Token × LexEnd :=
  tokenizeGo ((Reader.new line).size + 1) (Reader.new line)

/-- The tokens produced from reader state `r` onwards. -/
def tokensOf (r : Reader) : List Token :=
  (tokenizeGo (r.size + 1) r).1

/-- The token stream of a source line. -/
def lineTokens (line : List Char) : List Token :=
  (tokenize line).1

/-- `Word` (parser.rs, `struct Word`). -/
structure Word where
  mnemonic : Char
  value : ℚ
  deriving DecidableEq

/-- `Block` (parser.rs, `struct Block`).  `line` is kept as the character list
handed to `Parser::next` (Rust stores `line.to_owned()`). -/
structure Block where
  line_number : Option ℚ
  deleted : Bool
  words : List Word
  line : List Char
  deriving DecidableEq

/-- `ParserError` (parser.rs, `enum ParserError`). -/
inductive ParserError
  | SyntaxError (e : LexerError)
  | UnexpectedToken (token : Token)
  | MissingValue
  deriving DecidableEq

/-- Result of parsing one line.  `crash` propagates a lexer crash; `hung`
marks fuel exhaustion of the word loop (never produced by the wrapper, whose
fuel bound is sufficient). -/
inductive ParseResult
  | ok (b : Block)
  | err (e : ParserError)
  | crash
  | hung
  deriving DecidableEq

/-- The word loop of `Parser::next` (parser.rs lines 427-458): one iteration
consumes a `Letter` token plus the `Number` that must follow it, mapping the
letter `N` to `line_number` and every other pair to an appended `Word`
(fuel-indexed worker). -/
def Parser.loopGo : Nat → Option Token → Reader → Block → ParseResult
  | 0, _, _, _ => .hung
  | fuel + 1, cur, r, b =>
    match cur with
    | none => .ok b
    | some (.Letter letter) =>
      match Lexer.next r with
      | (.ok cur', r') =>
        match cur' with
        | some (.Number value) =>
          match Lexer.next r' with
          | (.ok cur'', r'') =>
            if letter = 'N' then
              Parser.loopGo fuel cur'' r'' { b with line_number := some value }
            else
              Parser.loopGo fuel cur'' r'' { b with words := b.words ++ [⟨letter, value⟩] }
          | (.err e, _) => .err (.SyntaxError e)
          | (.crash, _) => .crash
        | some token => .err (.UnexpectedToken token)
        | none => .err .MissingValue
      | (.err e, _) => .err (.SyntaxError e)
      | (.crash, _) => .crash
    | some token => .err (.UnexpectedToken token)

/-- `Parser::next` (parser.rs lines 403-461) specialised to one input line
(the Rust function additionally pulls the line from a line iterator and
returns `Ok(None)` at its end): build the empty block carrying the raw line
text, read the first token, honour a leading `BlockDelete`, then run the word
loop. -/
def Parser.parse_line (line : List Char) : ParseResult :=
  match Lexer.next (Reader.new line) with
  | (.ok cur, r') =>
    if cur = some .BlockDelete then
      match Lexer.next r' with
      | (.ok cur', r'') =>
        Parser.loopGo (r''.size + 1) cur' r''
          { line_number := none, deleted := true, words := [], line := line }
      | (.err e, _) => .err (.SyntaxError e)
      | (.crash, _) => .crash
    else
      Parser.loopGo (r'.size + 1) cur r'
        { line_number := none, deleted := false, words := [], line := line }
  | (.err e, _) => .err (.SyntaxError e)
  | (.crash, _) => .crash

/-- Does a `Letter('N')` token immediately followed by a `Number` token occur
in a token stream? -/
def hasNPair : List Token → Bool
  | .Letter c :: .Number _ :: rest => c = 'N' || hasNPair rest
  | _ :: rest => hasNPair rest
  | [] => false

/-- The value of the last `N`-letter/number pair of a token stream, if any. -/
def lastNVal : List Token → Option ℚ
  | .Letter c :: .Number v :: rest =>
    (lastNVal rest).or (if c = 'N' then some v else none)
  | _ :: rest => lastNVal rest
  | [] => none

/-- The words an alternating letter/number token stream denotes (`N` pairs are
lifted out). -/
def wordsOf : List Token → List Word
  | .Letter c :: .Number v :: rest =>
    (if c = 'N' then [] else [⟨c, v⟩]) ++ wordsOf rest
  | _ => []

/-- The token stream seen by the word loop: the token already in hand followed
by the tokens still to be produced from the reader. -/
def streamOf (cur : Option Token) (r : Reader) : List Token :=
  match cur with
  | some t => t :: tokensOf r
  | none => []

/-- Modelled from the spec: "`line` is the exact source line, with
leading/trailing whitespace removed" — removal of leading and trailing
whitespace from a line, used only to state what the spec claims the `line`
field to be. -/
def trimSpec (l : List Char) : List Char :=
  ((l.dropWhile Char.isWhitespace).reverse.dropWhile Char.isWhitespace).reverse

/-! ### Reader lemmas -/

theorem readNext_length_le (l : List Char) : (readNext l).2.length ≤ l.length := by
  induction l with
  | nil => simp [readNext]
  | cons c rest ih =>
    by_cases h : c = ' ' ∨ c = '\t'
    · simp only [readNext, if_pos h]
      exact Nat.le_trans ih (Nat.le_succ _)
    · simp [readNext, if_neg h]

theorem readNext_some_length_lt (l : List Char) (c : Char) (h : (readNext l).1 = some c) :
    (readNext l).2.length < l.length := by
  induction l with
  | nil => simp [readNext] at h
  | cons d rest ih =>
    by_cases hd : d = ' ' ∨ d = '\t'
    · simp only [readNext, if_pos hd] at h ⊢
      exact Nat.lt_trans (ih h) (Nat.lt_succ_self _)
    · simp [readNext, if_neg hd]

theorem readNext_none (l : List Char) (h : (readNext l).1 = none) : (readNext l).2 = [] := by
  induction l with
  | nil => simp [readNext]
  | cons d rest ih =>
    by_cases hd : d = ' ' ∨ d = '\t'
    · simp only [readNext, if_pos hd] at h ⊢
      exact ih h
    · simp [readNext, if_neg hd] at h

theorem enhance_size_le (r : Reader) : r.enhance.size ≤ r.input.length := by
  unfold Reader.enhance Reader.size
  cases h : (readNext r.input).1 with
  | some c =>
    have := readNext_some_length_lt r.input c h
    simp only [h, Option.isSome_some, if_pos]
    omega
  | none =>
    simp [readNext_none r.input h]

theorem size_le_of_current_some (r : Reader) (c : Char) (h : r.current = some c) :
    r.input.length + 1 ≤ r.size := by
  unfold Reader.size
  rw [h]
  simp

theorem enhance_size_lt (r : Reader) (c : Char) (h : r.current = some c) :
    r.enhance.size < r.size := by
  have h1 := enhance_size_le r
  have h2 := size_le_of_current_some r c h
  omega

theorem input_length_le_size (r : Reader) : r.input.length ≤ r.size := by
  unfold Reader.size
  omega

theorem enhance_size_le_size (r : Reader) : r.enhance.size ≤ r.size :=
  Nat.le_trans (enhance_size_le r) (input_length_le_size r)

/-! ### Size bounds for the lexer's loops -/

theorem acceptWhileGo_size (p : Char → Bool) (fuel : Nat) (r : Reader) :
    (acceptWhileGo p fuel r).2.size ≤ r.size := by
  induction fuel generalizing r with
  | zero => simp [acceptWhileGo]
  | succ fuel ih =>
    cases h : r.current with
    | some c =>
      by_cases hp : p c = true
      · simp only [acceptWhileGo, h, hp, if_pos]
        exact Nat.le_trans (ih r.enhance) (enhance_size_le_size r)
      · simp [acceptWhileGo, h, hp]
    | none => simp [acceptWhileGo, h]

theorem acceptUntilGo_size (p : Char → Bool) (fuel : Nat) (r : Reader) :
    (acceptUntilGo p fuel r).size ≤ r.size := by
  induction fuel generalizing r with
  | zero => simp [acceptUntilGo]
  | succ fuel ih =>
    cases h : r.current with
    | some c =>
      by_cases hp : p c = true
      · simp only [acceptUntilGo, h, hp, if_pos]
        exact enhance_size_le_size r
      · simp only [acceptUntilGo, h, hp, if_neg, Bool.false_eq_true, not_false_iff]
        exact Nat.le_trans (ih r.enhance) (enhance_size_le_size r)
    | none => simp [acceptUntilGo, h]

theorem acceptNumberGo_size (p : Char → Bool) (fuel : Nat) (r : Reader) (buf buf' : List Char)
    (r' : Reader) (h : acceptNumberGo p fuel r buf = some (buf', r')) : r'.size ≤ r.size := by
  induction fuel generalizing r buf with
  | zero =>
    simp only [acceptNumberGo, Option.some_inj, Prod.mk.injEq] at h
    rw [← h.2]
  | succ fuel ih =>
    cases hc : r.current with
    | some c =>
      by_cases hp : p c = true
      · by_cases hfit : utf8Len buf + c.utf8Size ≤ 32
        · simp only [acceptNumberGo, hc, hp, hfit, if_pos] at h
          exact Nat.le_trans (ih r.enhance (buf ++ [c]) h) (enhance_size_le_size r)
        · simp [acceptNumberGo, hc, hp, hfit] at h
      · simp only [acceptNumberGo, hc, hp, Bool.false_eq_true, if_neg, not_false_iff,
          Option.some_inj, Prod.mk.injEq] at h
        rw [← h.2]
    | none =>
      simp only [acceptNumberGo, hc, Option.some_inj, Prod.mk.injEq] at h
      rw [← h.2]

theorem acceptNumberGo_progress (p : Char → Bool) (fuel : Nat) (r : Reader) (c : Char)
    (buf buf' : List Char) (r' : Reader) (hc : r.current = some c) (hp : p c = true)
    (h : acceptNumberGo p (fuel + 1) r buf = some (buf', r')) : r'.size < r.size := by
  by_cases hfit : utf8Len buf + c.utf8Size ≤ 32
  · simp only [acceptNumberGo, hc, hp, hfit, if_pos] at h
    exact Nat.lt_of_le_of_lt (acceptNumberGo_size p fuel r.enhance (buf ++ [c]) buf' r' h)
      (enhance_size_lt r c hc)
  · simp [acceptNumberGo, hc, hp, hfit] at h

/-! ### Size bounds and progress for `Lexer.next` -/

theorem tok_number_size (r : Reader) : (Lexer.tok_number r).2.size ≤ r.size := by
  unfold Lexer.tok_number
  cases h : acceptNumberGo numPred (r.size + 1) r [] with
  | none => simp
  | some pr =>
    obtain ⟨buf, r2⟩ := pr
    have hle := acceptNumberGo_size numPred (r.size + 1) r [] buf r2 h
    cases hv : parseF64 buf with
    | none => simp [hv, hle]
    | some v => simp [hv, hle]

theorem tok_number_progress (r : Reader) (c : Char) (t : Option Token)
    (hc : r.current = some c) (hp : numPred c = true)
    (h : (Lexer.tok_number r).1 = .ok t) : (Lexer.tok_number r).2.size < r.size := by
  unfold Lexer.tok_number at h ⊢
  cases hacc : acceptNumberGo numPred (r.size + 1) r [] with
  | none => simp [hacc] at h
  | some pr =>
    obtain ⟨buf, r2⟩ := pr
    have hlt := acceptNumberGo_progress numPred r.size r c [] buf r2 hc hp hacc
    cases hv : parseF64 buf with
    | none => simp [hv, hlt]
    | some v => simp [hv, hlt]

theorem skipLineComment_size (r : Reader) : (skipLineComment r).size ≤ r.size := by
  unfold skipLineComment
  split
  · exact acceptWhileGo_size _ _ r
  · exact Nat.le_refl _

theorem skipBlockComment_size (r : Reader) : (skipBlockComment r).size ≤ r.size := by
  unfold skipBlockComment
  split
  · exact acceptUntilGo_size _ _ r
  · exact Nat.le_refl _

theorem lexDispatch_size (r : Reader) : (lexDispatch r).2.size ≤ r.size := by
  unfold lexDispatch
  cases h : r.current with
  | none => simp
  | some c =>
    by_cases h1 : c = '/'
    · simpa [h1] using enhance_size_le_size r
    by_cases h2 : c = '%'
    · simpa [h1, h2] using enhance_size_le_size r
    by_cases h3 : c.isAlpha = true
    · simpa [h1, h2, h3] using enhance_size_le_size r
    by_cases h4 : c = '+' ∨ c = '-' ∨ c = '.'
    · simpa [h1, h2, h3, h4] using tok_number_size r
    by_cases h5 : isNumericChar c = true
    · simpa [h1, h2, h3, h4, h5] using tok_number_size r
    · simp [h1, h2, h3, h4, h5]

theorem lexDispatch_progress (r : Reader) (t : Token)
    (h : (lexDispatch r).1 = .ok (some t)) : (lexDispatch r).2.size < r.size := by
  unfold lexDispatch at h ⊢
  cases hc : r.current with
  | none => simp [hc] at h
  | some c =>
    by_cases h1 : c = '/'
    · simpa [h1] using enhance_size_lt r c hc
    by_cases h2 : c = '%'
    · simpa [h1, h2] using enhance_size_lt r c hc
    by_cases h3 : c.isAlpha = true
    · simpa [h1, h2, h3] using enhance_size_lt r c hc
    by_cases h4 : c = '+' ∨ c = '-' ∨ c = '.'
    · have hp : numPred c = true := by
        rcases h4 with h4 | h4 | h4 <;> subst h4 <;> decide
      simp only [hc, h1, h2, h3, h4, if_neg, if_pos, Bool.false_eq_true, not_false_iff] at h ⊢
      exact tok_number_progress r c _ hc hp h
    by_cases h5 : isNumericChar c = true
    · have hp : numPred c = true := by
        unfold numPred
        rw [h5]
        rfl
      simp only [hc, h1, h2, h3, h4, h5, if_neg, if_pos, Bool.false_eq_true, not_false_iff] at h ⊢
      exact tok_number_progress r c _ hc hp h
    · simp [hc, h1, h2, h3, h4, h5] at h

theorem lexNext_size (r : Reader) : (Lexer.next r).2.size ≤ r.size :=
  Nat.le_trans (lexDispatch_size _)
    (Nat.le_trans (skipBlockComment_size _) (skipLineComment_size r))

theorem lexNext_progress (r : Reader) (t : Token)
    (h : (Lexer.next r).1 = .ok (some t)) : (Lexer.next r).2.size < r.size :=
  Nat.lt_of_lt_of_le (lexDispatch_progress _ t h)
    (Nat.le_trans (skipBlockComment_size _) (skipLineComment_size r))

/-! ### Token stream lemmas -/

theorem option_some_or {α : Type} (a : α) (x : Option α) : (some a).or x = some a := rfl

theorem option_none_or {α : Type} (x : Option α) : Option.or none x = x := rfl

theorem option_or_none {α : Type} (x : Option α) : x.or none = x := by cases x <;> rfl

theorem option_or_assoc {α : Type} (a b c : Option α) : (a.or b).or c = a.or (b.or c) := by
  cases a <;> rfl

theorem tokenizeGo_stable (f₁ : Nat) : ∀ (f₂ : Nat) (r : Reader), r.size < f₁ → r.size < f₂ →
    tokenizeGo f₁ r = tokenizeGo f₂ r := by
  induction f₁ with
  | zero => omega
  | succ f₁ ih =>
    intro f₂ r h₁ h₂
    cases f₂ with
    | zero => omega
    | succ f₂ =>
      cases hl : Lexer.next r with
      | mk res r' =>
        cases res with
        | ok t =>
          cases t with
          | none => simp only [tokenizeGo, hl]
          | some tok =>
            have hp : r'.size < r.size := by
              have h := lexNext_progress r tok (by rw [hl])
              rwa [hl] at h
            simp only [tokenizeGo, hl]
            rw [ih f₂ r' (by omega) (by omega)]
        | err e => simp only [tokenizeGo, hl]
        | crash => simp only [tokenizeGo, hl]

theorem tokensOf_step (r r' : Reader) (cur : Option Token)
    (h : Lexer.next r = (.ok cur, r')) : tokensOf r = streamOf cur r' := by
  unfold tokensOf
  cases cur with
  | none =>
    simp only [tokenizeGo, h, streamOf]
  | some t =>
    have hp : r'.size < r.size := by
      have hh := lexNext_progress r t (by rw [h])
      rwa [h] at hh
    simp only [tokenizeGo, h, streamOf]
    rw [tokenizeGo_stable r.size (r'.size + 1) r' (by omega) (by omega)]
    rfl

theorem hasNPair_eq (s : List Token) : hasNPair s = (lastNVal s).isSome := by
  induction s using hasNPair.induct with
  | case1 c v rest ih =>
    by_cases hc : c = 'N'
    · cases h : lastNVal rest <;> simp [hasNPair, lastNVal, hc, h, Option.or]
    · cases h : lastNVal rest <;> simp [hasNPair, lastNVal, hc, h, Option.or, ih]
  | case2 head rest h1 ih =>
    cases head with
    | Letter c =>
      cases rest with
      | nil => simp [hasNPair, lastNVal]
      | cons t' rest' =>
        cases t' with
        | Number v => exact (h1 c v rest' rfl rfl).elim
        | BlockDelete => simpa [hasNPair, lastNVal] using ih
        | Letter d => simpa [hasNPair, lastNVal] using ih
        | Demarcation => simpa [hasNPair, lastNVal] using ih
    | BlockDelete => simpa [hasNPair, lastNVal] using ih
    | Number v => simpa [hasNPair, lastNVal] using ih
    | Demarcation => simpa [hasNPair, lastNVal] using ih
  | case3 => simp [hasNPair, lastNVal]

theorem wordsOf_mnemonic (s : List Token) (w : Word) (h : w ∈ wordsOf s) :
    ¬ w.mnemonic = 'N' := by
  induction s using wordsOf.induct with
  | case1 c v rest ih =>
    by_cases hc : c = 'N'
    · simp only [wordsOf, if_pos hc, List.nil_append] at h
      exact ih h
    · simp only [wordsOf, if_neg hc, List.singleton_append, List.mem_cons] at h
      rcases h with h | h
      · rw [h]
        exact hc
      · exact ih h
  | case2 s h1 =>
    cases s with
    | nil => simp [wordsOf] at h
    | cons t' rest' =>
      cases t' with
      | Letter c =>
        cases rest' with
        | nil => simp [wordsOf] at h
        | cons t'' rest'' =>
          cases t'' with
          | Number v => exact (h1 c v rest'' rfl).elim
          | BlockDelete => simp [wordsOf] at h
          | Letter d => simp [wordsOf] at h
          | Demarcation => simp [wordsOf] at h
      | BlockDelete => simp [wordsOf] at h
      | Number v => simp [wordsOf] at h
      | Demarcation => simp [wordsOf] at h

/-! ### The parser loop invariant -/

theorem loopGo_spec (fuel : Nat) : ∀ (cur : Option Token) (r : Reader) (b b' : Block),
    r.size < fuel → Parser.loopGo fuel cur r b = .ok b' →
    b'.line = b.line ∧ b'.deleted = b.deleted ∧
    b'.line_number = (lastNVal (streamOf cur r)).or b.line_number ∧
    b'.words = b.words ++ wordsOf (streamOf cur r) := by
  induction fuel with
  | zero => omega
  | succ fuel ih =>
    intro cur r b b' hf h
    cases cur with
    | none =>
      simp only [Parser.loopGo, ParseResult.ok.injEq] at h
      subst h
      simp [streamOf, lastNVal, wordsOf, option_none_or]
    | some t =>
      cases t with
      | BlockDelete => simp [Parser.loopGo] at h
      | Number v => simp [Parser.loopGo] at h
      | Demarcation => simp [Parser.loopGo] at h
      | Letter letter =>
        cases hl : Lexer.next r with
        | mk res r1 =>
          simp only [Parser.loopGo, hl] at h
          cases res with
          | err e => simp at h
          | crash => simp at h
          | ok cur1 =>
            cases cur1 with
            | none => simp at h
            | some t1 =>
              cases t1 with
              | BlockDelete => simp at h
              | Letter d => simp at h
              | Demarcation => simp at h
              | Number v =>
                try dsimp only at h
                cases hl2 : Lexer.next r1 with
                | mk res2 r2 =>
                  rw [hl2] at h
                  cases res2 with
                  | err e => simp at h
                  | crash => simp at h
                  | ok cur2 =>
                    try dsimp only at h
                    have hr1 : r1.size < r.size := by
                      have hh := lexNext_progress r (.Number v) (by rw [hl])
                      rwa [hl] at hh
                    have hr2 : r2.size ≤ r1.size := by
                      have hh := lexNext_size r1
                      rwa [hl2] at hh
                    have hs : streamOf (some (Token.Letter letter)) r =
                        Token.Letter letter :: Token.Number v :: streamOf cur2 r2 := by
                      have e1 := tokensOf_step r r1 (some (.Number v)) hl
                      have e2 := tokensOf_step r1 r2 cur2 hl2
                      simp only [streamOf] at e1 ⊢
                      rw [e1, e2]
                      cases cur2 <;> rfl
                    by_cases hN : letter = 'N'
                    · rw [if_pos hN] at h
                      obtain ⟨l1, l2, l3, l4⟩ :=
                        ih cur2 r2 { b with line_number := some v } b' (by omega) h
                      subst hN
                      refine ⟨l1, l2, ?_, ?_⟩
                      · rw [hs, l3]
                        simp [lastNVal, option_or_assoc, option_some_or]
                      · rw [hs, l4]
                        simp [wordsOf]
                    · rw [if_neg hN] at h
                      obtain ⟨l1, l2, l3, l4⟩ :=
                        ih cur2 r2 { b with words := b.words ++ [⟨letter, v⟩] } b'
                          (by omega) h
                      refine ⟨l1, l2, ?_, ?_⟩
                      · rw [hs, l3]
                        simp [lastNVal, hN, option_or_assoc, option_none_or]
                      · rw [hs, l4]
                        simp [wordsOf, hN]

/-- What `Parser::next` guarantees about a successfully parsed line: the block
keeps the raw line text, its `line_number` is the last `N` pair of the line's
token stream, and every word has a non-`N` mnemonic. -/
theorem parse_line_spec (line : List Char) (b : Block) (h : Parser.parse_line line = .ok b) :
    b.line = line ∧ b.line_number = lastNVal (lineTokens line) ∧
    ∀ w ∈ b.words, ¬ w.mnemonic = 'N' := by
  unfold Parser.parse_line at h
  cases hl : Lexer.next (Reader.new line) with
  | mk res r1 =>
    rw [hl] at h
    cases res with
    | err e => simp at h
    | crash => simp at h
    | ok cur =>
      try dsimp only at h
      have htok : lineTokens line = streamOf cur r1 :=
        tokensOf_step (Reader.new line) r1 cur hl
      by_cases hbd : cur = some Token.BlockDelete
      · rw [if_pos hbd] at h
        cases hl2 : Lexer.next r1 with
        | mk res2 r2 =>
          rw [hl2] at h
          cases res2 with
          | err e => simp at h
          | crash => simp at h
          | ok cur2 =>
            obtain ⟨l1, l2, l3, l4⟩ :=
              loopGo_spec (r2.size + 1) cur2 r2 _ b (by omega) h
            have htok2 : tokensOf r1 = streamOf cur2 r2 := tokensOf_step r1 r2 cur2 hl2
            refine ⟨l1, ?_, ?_⟩
            · rw [l3, htok, hbd]
              simp [streamOf, lastNVal, htok2, option_or_none]
            · intro w hw
              rw [l4] at hw
              simp only [List.nil_append] at hw
              exact wordsOf_mnemonic _ w hw
      · rw [if_neg hbd] at h
        obtain ⟨l1, l2, l3, l4⟩ :=
          loopGo_spec (r1.size + 1) cur r1 _ b (by omega) h
        refine ⟨l1, ?_, ?_⟩
        · rw [htok, l3]
          simp [option_or_none]
        · intro w hw
          rw [l4] at hw
          simp only [List.nil_append] at hw
          exact wordsOf_mnemonic _ w hw

/-! ### ASCII character lemmas (for case-insensitivity and the symbol dispatch) -/

theorem uint32_le_iff (a b : UInt32) : a ≤ b ↔ a.toNat ≤ b.toNat := by
  rw [UInt32.le_def, BitVec.le_def]
  exact Iff.rfl

theorem isAlpha_iff_toNat (c : Char) : c.isAlpha = true ↔
    (65 ≤ c.toNat ∧ c.toNat ≤ 90) ∨ (97 ≤ c.toNat ∧ c.toNat ≤ 122) := by
  simp only [Char.isAlpha, Char.isUpper, Char.isLower, Bool.or_eq_true, Bool.and_eq_true,
    decide_eq_true_eq]
  constructor
  · rintro (⟨h1, h2⟩ | ⟨h1, h2⟩)
    · exact Or.inl ⟨(uint32_le_iff _ _).mp h1, (uint32_le_iff _ _).mp h2⟩
    · exact Or.inr ⟨(uint32_le_iff _ _).mp h1, (uint32_le_iff _ _).mp h2⟩
  · rintro (⟨h1, h2⟩ | ⟨h1, h2⟩)
    · exact Or.inl ⟨(uint32_le_iff _ _).mpr h1, (uint32_le_iff _ _).mpr h2⟩
    · exact Or.inr ⟨(uint32_le_iff _ _).mpr h1, (uint32_le_iff _ _).mpr h2⟩

theorem toNat_ofNat_valid (n : Nat) (h : n.isValidChar) : (Char.ofNat n).toNat = n := by
  simp only [Char.ofNat, dif_pos h, Char.toNat, Char.ofNatAux]
  simp [UInt32.toNat]

theorem isValidChar_of_small (n : Nat) (h : n < 0xD800) : n.isValidChar := Or.inl h

theorem char_toNat_inj (c d : Char) (h : c.toNat = d.toNat) : c = d := by
  have hc := Char.ofNat_toNat c
  have hd := Char.ofNat_toNat d
  rw [← hc, ← hd, h]

theorem toLower_eq (c : Char) :
    c.toLower = if 65 ≤ c.toNat ∧ c.toNat ≤ 90 then Char.ofNat (c.toNat + 32) else c := rfl

theorem toUpper_eq (c : Char) :
    c.toUpper = if 97 ≤ c.toNat ∧ c.toNat ≤ 122 then Char.ofNat (c.toNat - 32) else c := rfl

theorem alpha_toLower_toUpper (c : Char) (h : c.isAlpha = true) :
    c.toLower.toUpper = c.toUpper := by
  rcases (isAlpha_iff_toNat c).mp h with ⟨h1, h2⟩ | ⟨h1, h2⟩
  · have hv : (c.toNat + 32).isValidChar := isValidChar_of_small _ (by omega)
    have hlo : c.toLower = Char.ofNat (c.toNat + 32) := by
      rw [toLower_eq, if_pos ⟨h1, h2⟩]
    have hnat : (Char.ofNat (c.toNat + 32)).toNat = c.toNat + 32 := toNat_ofNat_valid _ hv
    rw [hlo, toUpper_eq, hnat, if_pos (by omega), toUpper_eq, if_neg (by omega)]
    have : c.toNat + 32 - 32 = c.toNat := by omega
    rw [this, Char.ofNat_toNat]
  · rw [toLower_eq, if_neg (by omega)]

theorem alpha_toLower_isAlpha (c : Char) (h : c.isAlpha = true) :
    c.toLower.isAlpha = true := by
  rcases (isAlpha_iff_toNat c).mp h with ⟨h1, h2⟩ | ⟨h1, h2⟩
  · have hv : (c.toNat + 32).isValidChar := isValidChar_of_small _ (by omega)
    have hlo : c.toLower = Char.ofNat (c.toNat + 32) := by
      rw [toLower_eq, if_pos ⟨h1, h2⟩]
    rw [hlo, isAlpha_iff_toNat, toNat_ofNat_valid _ hv]
    omega
  · rwa [toLower_eq, if_neg (by omega)]

theorem alpha_toUpper_isAlpha (c : Char) (h : c.isAlpha = true) :
    c.toUpper.isAlpha = true := by
  rcases (isAlpha_iff_toNat c).mp h with ⟨h1, h2⟩ | ⟨h1, h2⟩
  · rwa [toUpper_eq, if_neg (by omega)]
  · have hv : (c.toNat - 32).isValidChar := isValidChar_of_small _ (by omega)
    have hup : c.toUpper = Char.ofNat (c.toNat - 32) := by
      rw [toUpper_eq, if_pos ⟨h1, h2⟩]
    rw [hup, isAlpha_iff_toNat, toNat_ofNat_valid _ hv]
    omega

theorem alpha_toUpper_toUpper (c : Char) (h : c.isAlpha = true) :
    c.toUpper.toUpper = c.toUpper := by
  rcases (isAlpha_iff_toNat c).mp h with ⟨h1, h2⟩ | ⟨h1, h2⟩
  · have he : c.toUpper = c := by rw [toUpper_eq, if_neg (by omega)]
    rw [he]
    exact he
  · have hv : (c.toNat - 32).isValidChar := isValidChar_of_small _ (by omega)
    have hup : c.toUpper = Char.ofNat (c.toNat - 32) := by
      rw [toUpper_eq, if_pos ⟨h1, h2⟩]
    rw [hup, toUpper_eq, toNat_ofNat_valid _ hv, if_neg (by omega)]

theorem alpha_ne (c d : Char) (h : c.isAlpha = true) (hd : d.isAlpha = false) : ¬ c = d := by
  intro e
  rw [e, hd] at h
  exact Bool.false_ne_true h

/-! ### Unterminated block comments consume the whole input -/

theorem readNext_fst_mem (l : List Char) (c : Char) (h : (readNext l).1 = some c) : c ∈ l := by
  induction l with
  | nil => simp [readNext] at h
  | cons d rest ih =>
    by_cases hd : d = ' ' ∨ d = '\t'
    · simp only [readNext, if_pos hd] at h
      exact List.mem_cons_of_mem d (ih h)
    · simp only [readNext, if_neg hd, Option.some_inj] at h
      rw [h]
      exact List.mem_cons_self c rest

theorem readNext_snd_subset (l : List Char) (c : Char) (h : c ∈ (readNext l).2) : c ∈ l := by
  induction l with
  | nil => simp [readNext] at h
  | cons d rest ih =>
    by_cases hd : d = ' ' ∨ d = '\t'
    · simp only [readNext, if_pos hd] at h
      exact List.mem_cons_of_mem d (ih h)
    · simp only [readNext, if_neg hd] at h
      exact List.mem_cons_of_mem d h

theorem acceptUntilGo_consume_all (p : Char → Bool) (fuel : Nat) : ∀ (r : Reader),
    r.size < fuel → (r.current = none → r.input = []) →
    (∀ c, r.current = some c → p c = false) →
    (∀ c, c ∈ r.input → p c = false) →
    acceptUntilGo p fuel r = ⟨none, []⟩ := by
  induction fuel with
  | zero =>
    intro r hf
    omega
  | succ fuel ih =>
    intro r hf hwf hc hi
    cases hcur : r.current with
    | none =>
      have hin : r.input = [] := hwf hcur
      obtain ⟨cu, inp⟩ := r
      simp only at hcur hin
      subst hcur
      subst hin
      simp [acceptUntilGo]
    | some c =>
      have hpc : p c = false := hc c hcur
      simp only [acceptUntilGo, hcur, hpc, Bool.false_eq_true, if_neg, not_false_iff]
      apply ih r.enhance
      · have := enhance_size_lt r c hcur
        omega
      · intro hnone
        exact readNext_none _ hnone
      · intro d hd
        exact hi d (readNext_fst_mem _ _ hd)
      · intro d hd
        exact hi d (readNext_snd_subset _ d hd)

/-! ### Parsing a one-letter one-digit line -/

theorem loopGo_letter_one (U : Char) (b : Block) :
    Parser.loopGo 2 (some (.Letter U)) ⟨some '1', []⟩ b =
      .ok (if U = 'N' then { b with line_number := some 1 }
           else { b with words := b.words ++ [⟨U, 1⟩] }) := by
  show (if U = 'N'
        then Parser.loopGo 1 none ⟨none, []⟩ { b with line_number := some 1 }
        else Parser.loopGo 1 none ⟨none, []⟩ { b with words := b.words ++ [⟨U, 1⟩] }) =
      .ok (if U = 'N' then { b with line_number := some 1 }
           else { b with words := b.words ++ [⟨U, 1⟩] })
  by_cases hU : U = 'N'
  · rw [if_pos hU, if_pos hU]
    rfl
  · rw [if_neg hU, if_neg hU]
    rfl

theorem parse_line_letter_digit (x : Char) (hx : x.isAlpha = true) :
    Parser.parse_line [x, '1'] =
      .ok (if x.toUpper = 'N'
        then { line_number := some 1, deleted := false, words := [], line := [x, '1'] }
        else { line_number := none, deleted := false, words := [⟨x.toUpper, 1⟩],
               line := [x, '1'] }) := by
  have hsp : ¬ x = ' ' := alpha_ne _ _ hx (by decide)
  have htb : ¬ x = '\t' := alpha_ne _ _ hx (by decide)
  have hsc : ¬ x = ';' := alpha_ne _ _ hx (by decide)
  have hpa : ¬ x = '(' := alpha_ne _ _ hx (by decide)
  have hsl : ¬ x = '/' := alpha_ne _ _ hx (by decide)
  have hpc : ¬ x = '%' := alpha_ne _ _ hx (by decide)
  have hr : Reader.new [x, '1'] = ⟨some x, ['1']⟩ := by
    simp [Reader.new, readNext, hsp, htb]
  have hen : (⟨some x, ['1']⟩ : Reader).enhance = ⟨some '1', []⟩ := rfl
  have hlex : Lexer.next ⟨some x, ['1']⟩ = (.ok (some (.Letter x.toUpper)), ⟨some '1', []⟩) := by
    unfold Lexer.next skipLineComment skipBlockComment lexDispatch
    simp [Option.some.injEq, hsc, hpa, hsl, hpc, hx, hen]
  unfold Parser.parse_line
  rw [hr, hlex]
  dsimp only
  rw [if_neg (by simp : ¬ (some (Token.Letter x.toUpper) = some Token.BlockDelete))]
  have hsz : (⟨some '1', []⟩ : Reader).size + 1 = 2 := rfl
  rw [hsz, loopGo_letter_one]
  by_cases hU : x.toUpper = 'N' <;> simp [hU]

/-! ### Claims -/

/-- C1: Parsing the single line `"g0x +0. 1234y 7"` succeeds and yields a block
whose words are exactly `[G = 0.0, X = 0.1234, Y = 7.0]` in that order: letters
are uppercased, and spaces/tabs inside a number's run of digit/sign/dot
characters are skipped, so that `+0. 1234` denotes `0.1234`. -/
theorem c1_rs274_example :
    Parser.parse_line "g0x +0. 1234y 7".toList =
      .ok { line_number := none, deleted := false,
            words := [⟨'G', 0⟩, ⟨'X', mkRat 1234 10000⟩, ⟨'Y', 7⟩],
            line := "g0x +0. 1234y 7".toList } := by
  decide

/-- C2: For every input line on which parsing succeeds, no word of the block
has mnemonic `N`, and `line_number` is `some` iff a `Letter('N')` token
immediately followed by a `Number` token appears in the line's token stream. -/
theorem c2_line_number_lifting (line : List Char) (b : Block)
    (h : Parser.parse_line line = .ok b) :
    (∀ w ∈ b.words, ¬ w.mnemonic = 'N') ∧
    (b.line_number.isSome = true ↔ hasNPair (lineTokens line) = true) := by
  obtain ⟨l1, l2, l3⟩ := parse_line_spec line b h
  refine ⟨l3, ?_⟩
  rw [l2, hasNPair_eq]

/-- Witness for C2 at the concrete line `"N10G1"`. -/
theorem c2_line_number_lifting_witness :
    (∀ w ∈ (⟨some 10, false, [⟨'G', 1⟩], "N10G1".toList⟩ : Block).words,
      ¬ w.mnemonic = 'N') ∧
    ((⟨some 10, false, [⟨'G', 1⟩], "N10G1".toList⟩ : Block).line_number.isSome = true ↔
      hasNPair (lineTokens "N10G1".toList) = true) :=
  c2_line_number_lifting "N10G1".toList _ (by decide)

/-- C3 (failing input): on the 33-digit line `"111…1"` — which consists solely
of characters from the claimed alphabet — the repeated-`next()` tokenization
crashes (models the Rust panic in `ArrayString::push`) instead of ending in
`Ok(None)` or a `LexerError`. -/
theorem c3_lexer_crashes_within_alphabet :
    tokenize (List.replicate 33 '1') = ([], .crashed) := by
  decide

/-- C4 (failing input): when the buffered digit/sign/dot run exceeds the
32-byte buffer, `Lexer::next` does not return `InvalidNumber` or any error
value — it crashes (Rust: `ArrayString::push` panics). -/
theorem c4_buffer_overflow_crashes :
    (Lexer.next (Reader.new (List.replicate 33 '1'))).1 = .crash := by
  decide

/-- C5 (counterexample): `parse("g1")` and `parse("G1")` do NOT yield identical
block values — their `line` fields keep the raw source, `"g1"` vs `"G1"`. -/
theorem c5_counterexample :
    ¬ Parser.parse_line "g1".toList = Parser.parse_line "G1".toList := by
  decide

/-- C5 (amended): for every ASCII letter `c`, parsing the lowercase line `c1`
and the uppercase line `C1` yields blocks that agree on `line_number`,
`deleted` and `words` (the `line` fields keep the respective raw sources). -/
theorem c5_case_insensitive (c : Char) (h : c.isAlpha = true) :
    ∃ b₁ b₂ : Block, Parser.parse_line [c.toLower, '1'] = .ok b₁ ∧
      Parser.parse_line [c.toUpper, '1'] = .ok b₂ ∧
      b₁.line_number = b₂.line_number ∧ b₁.deleted = b₂.deleted ∧ b₁.words = b₂.words := by
  have e1 := parse_line_letter_digit c.toLower (alpha_toLower_isAlpha c h)
  have e2 := parse_line_letter_digit c.toUpper (alpha_toUpper_isAlpha c h)
  rw [alpha_toLower_toUpper c h] at e1
  rw [alpha_toUpper_toUpper c h] at e2
  by_cases hU : c.toUpper = 'N'
  · rw [if_pos hU] at e1 e2
    exact ⟨_, _, e1, e2, rfl, rfl, rfl⟩
  · rw [if_neg hU] at e1 e2
    exact ⟨_, _, e1, e2, rfl, rfl, rfl⟩

/-- Witness for the amended C5 at the concrete letter `g`. -/
theorem c5_case_insensitive_witness :
    ∃ b₁ b₂ : Block, Parser.parse_line ['g'.toLower, '1'] = .ok b₁ ∧
      Parser.parse_line ['g'.toUpper, '1'] = .ok b₂ ∧
      b₁.line_number = b₂.line_number ∧ b₁.deleted = b₂.deleted ∧ b₁.words = b₂.words :=
  c5_case_insensitive 'g' (by decide)

/-- C6 (counterexample): the line `" G1"` parses successfully, and the block's
`line` field is the untrimmed `" G1"`, not the whitespace-trimmed source. -/
theorem c6_counterexample :
    Parser.parse_line " G1".toList =
      .ok ⟨none, false, [⟨'G', 1⟩], " G1".toList⟩ ∧
    ¬ (⟨none, false, [⟨'G', 1⟩], " G1".toList⟩ : Block).line = trimSpec " G1".toList := by
  decide

/-- C6 (amended): for every successfully parsed line, the block's `line` field
equals the source line exactly as handed to the parser (no trimming). -/
theorem c6_line_is_raw (line : List Char) (b : Block)
    (h : Parser.parse_line line = .ok b) : b.line = line :=
  (parse_line_spec line b h).1

/-- Witness for the amended C6 at the concrete line `"G1"`. -/
theorem c6_line_is_raw_witness :
    (⟨none, false, [⟨'G', 1⟩], "G1".toList⟩ : Block).line = "G1".toList :=
  c6_line_is_raw "G1".toList _ (by decide)

/-- C7 (counterexample): parsing `"G (ignored) G"` does not fail with
`MissingValue`. -/
theorem c7_counterexample :
    ¬ Parser.parse_line "G (ignored) G".toList = .err .MissingValue := by
  decide

/-- C7 (amended): parsing `"G (ignored) G"` fails with
`UnexpectedToken(Letter('G'))`: the second `G` arrives where the number of the
first `G` was required. -/
theorem c7_unexpected_token :
    Parser.parse_line "G (ignored) G".toList =
      .err (.UnexpectedToken (.Letter 'G')) := by
  decide

/-- C8: if parsing succeeds and the line's token stream contains
`N`-letter/number pairs, the block's `line_number` is the value of the last
such pair (earlier values are overwritten without error). -/
theorem c8_last_n_wins (line : List Char) (b : Block) (v : ℚ)
    (h : Parser.parse_line line = .ok b)
    (hv : lastNVal (lineTokens line) = some v) :
    b.line_number = some v := by
  rw [(parse_line_spec line b h).2.1, hv]

/-- Witness for C8 at the concrete line `"N1N2G3"` (two `N` pairs; the second
one, value 2, wins). -/
theorem c8_last_n_wins_witness :
    (⟨some 2, false, [⟨'G', 3⟩], "N1N2G3".toList⟩ : Block).line_number = some 2 :=
  c8_last_n_wins "N1N2G3".toList _ 2 (by decide) (by decide)

/-- C9 (counterexample): the Arabic-Indic digit `٣` (U+0663) is none of `/`,
`%`, an ASCII letter, `+`, `-`, `.`, an ASCII digit, `;` or `(`, yet the lexer
reports `InvalidNumber`, not `IllegalSymbol`: Rust's `char::is_numeric` guard
routes it into the number scanner. -/
theorem c9_counterexample :
    Lexer.next (Reader.new ['٣']) = (.err (.InvalidNumber ['٣']), ⟨none, []⟩) ∧
    ¬ (LexResult.err (.InvalidNumber ['٣']) = .err (.IllegalSymbol '٣')) := by
  decide

/-- C9 (amended): for every ASCII character `c` that is not `/`, `%`, an ASCII
letter, `+`, `-`, `.`, or an ASCII digit (and not `;` or `(`, which start
comments), `Lexer::next` with `c` as the current character fails with
`IllegalSymbol` carrying `c`. -/
theorem c9_illegal_symbol (c : Char) (hascii : c.toNat < 128)
    (h1 : ¬ c = '/') (h2 : ¬ c = '%') (h3 : c.isAlpha = false)
    (h4 : ¬ c = '+') (h5 : ¬ c = '-') (h6 : ¬ c = '.')
    (h7 : c.isDigit = false) (h8 : ¬ c = ';') (h9 : ¬ c = '(') :
    Lexer.next ⟨some c, []⟩ = (.err (.IllegalSymbol c), ⟨some c, []⟩) := by
  have b1 : ¬ (0x660 ≤ c.toNat) := by omega
  have b2 : ¬ (0x6F0 ≤ c.toNat) := by omega
  have b3 : ¬ (0x966 ≤ c.toNat) := by omega
  have b4 : ¬ (0xFF10 ≤ c.toNat) := by omega
  have hnum : isNumericChar c = false := by
    simp [isNumericChar, h7, b1, b2, b3, b4]
  have hor : ¬ (c = '+' ∨ c = '-' ∨ c = '.') := by
    rintro (h | h | h)
    · exact h4 h
    · exact h5 h
    · exact h6 h
  unfold Lexer.next skipLineComment skipBlockComment lexDispatch
  simp [Option.some.injEq, h1, h2, h3, h8, h9, hor, hnum]

/-- Witness for the amended C9 at the concrete character `@`. -/
theorem c9_illegal_symbol_witness :
    Lexer.next ⟨some '@', []⟩ = (.err (.IllegalSymbol '@'), ⟨some '@', []⟩) :=
  c9_illegal_symbol '@' (by decide) (by decide) (by decide) (by decide)
    (by decide) (by decide) (by decide) (by decide) (by decide) (by decide)

/-- C10: if a `(` block comment is never closed before the input ends, the
lexer consumes all remaining characters and returns `Ok(None)` as if the input
had ended normally; no error is reported. -/
theorem c10_unterminated_comment (line : List Char)
    (h1 : (Reader.new line).current = some '(') (h2 : ')' ∉ line) :
    Lexer.next (Reader.new line) = (.ok none, ⟨none, []⟩) := by
  have hsk : skipLineComment (Reader.new line) = Reader.new line := by
    unfold skipLineComment
    rw [h1]
    simp
  have hbc : skipBlockComment (Reader.new line) = ⟨none, []⟩ := by
    unfold skipBlockComment
    rw [h1]
    simp only [Option.some.injEq, if_pos]
    unfold acceptUntil
    apply acceptUntilGo_consume_all
    · exact Nat.lt_succ_self _
    · intro hn
      exact readNext_none _ hn
    · intro d hd
      rw [h1] at hd
      simp only [Option.some_inj] at hd
      subst hd
      decide
    · intro d hd
      have hmem : d ∈ line := readNext_snd_subset line d hd
      have hne : ¬ d = ')' := fun e => h2 (e ▸ hmem)
      simp [hne]
  unfold Lexer.next
  rw [hsk, hbc]
  rfl

/-- Witness for C10 at the concrete line `"(abc"`. -/
theorem c10_unterminated_comment_witness :
    Lexer.next (Reader.new "(abc".toList) = (.ok none, ⟨none, []⟩) :=
  c10_unterminated_comment "(abc".toList (by decide) (by decide)

end GCode
